import Mathlib

/-!
Verification development for a small dynamic-mode-decomposition (DMD) library
used for open-quantum-system identification.  The source is one TensorFlow
module (`utils.py`) providing the functions `hankel`, `dmd`,
`solve_regression` and `pinv`.

Modelling choices (shallow embedding of the source):

* Tensors are total functions from natural-number indices to scalars; the
  shape of a tensor is carried separately where a claim is about shapes.
  Reshaping, transposition and slicing become index arithmetic that mirrors
  the row-major layout used by the source.
* Complex scalars are modelled by an arbitrary field `𝕜` carrying a star
  operation (conjugation); the complex numbers are an instance.  Singular
  values, which `tf.linalg.svd` returns as real numbers, are modelled
  exactly as rationals so that the tolerance comparisons of the source are
  exact; the `tf.cast` of the reciprocal singular values to the complex
  dtype becomes the canonical rational cast into `𝕜`.
* The linear-algebra primitives the source delegates to the library
  (`tf.linalg.svd`, `tf.linalg.eig`, `tf.linalg.inv`, `tf.math.sqrt`) are
  oracle inputs to the embedded pipeline; theorems that need their defining
  properties take those properties as explicit hypotheses (`isSVD`,
  `isEigPairs`, `isInverseOf`, and the square law of the square root).
* `tf.while_loop` is modelled by a fuel-bounded structural recursion with
  enough fuel to run the loop to completion, and the shape-invariant check
  that `tf.while_loop` performs on its initial loop variables is modelled
  explicitly, since one claim is about exactly that failure mode.
-/

namespace QDMD

/-- A rank-3 tensor: `T b i f` is the entry at batch `b`, position `i`,
feature `f`.  Indices out of range hold junk values; shapes are tracked
separately where they matter. -/
abbrev Ten3 (α : Type) := Nat → Nat → Nat → α

/-- A rank-4 tensor. -/
abbrev Ten4 (α : Type) := Nat → Nat → Nat → Nat → α

/-- A matrix (rank-2 tensor). -/
abbrev Mat (α : Type) := Nat → Nat → α

/-! ## The `hankel` function (source lines 29 to 45) -/

/-- The window `T[:, i:K+i]` of source line 42, as a rank-3 tensor
`(batch, K, feat)`: entry `(b, k, f)` is `T b (i+k) f`. -/
def hwindow {α : Type} (T : Ten3 α) (i : Nat) : Ten3 α := fun b k f => T b (i + k) f

/-- `tf.concat([t, w[:, newaxis]], axis=1)` of source line 42: the tensor `t`
currently holding `len` windows gets the window `w` appended at position
`len`. -/
def hconcat {α : Type} (t : Ten4 α) (len : Nat) (w : Ten3 α) : Ten4 α :=
  fun b j k f => if j < len then t b j k f else w b k f

/-- The initial loop variable `t = T[:, tf.newaxis, :K]` of source line 40:
one window starting at position 0. -/
def hankelInit {α : Type} (T : Ten3 α) : Ten4 α := fun b _ k f => T b k f

/-- The `tf.while_loop` of source lines 41 to 44: while `i <= L - K`, append
the window starting at `i` and increment `i`.  The loop is run on explicit
fuel (a structural bound on the number of iterations); `hankelRun` supplies
enough fuel for the loop to terminate by its own condition.  The state is
`(i, len, t)` where `len` is the number of windows currently held by `t`
(the symbolic dimension `None` of the source's shape invariant). -/
def hankelLoop {α : Type} (L K : Nat) (T : Ten3 α) : Nat → Nat → Nat → Ten4 α → Nat × Ten4 α
  | 0, _, len, t => (len, t)
  | fuel + 1, i, len, t =>
      if i ≤ L - K then hankelLoop L K T fuel (i + 1) (len + 1) (hconcat t len (hwindow T i))
      else (len, t)

/-- Run the hankel while loop from its initial state (`i = 1`, one window).
`L + 1` units of fuel are enough: the loop body runs at most `L - K ≤ L`
times. -/
def hankelRun {α : Type} (L K : Nat) (T : Ten3 α) : Nat × Ten4 α :=
  hankelLoop L K T (L + 1) 1 1 (hankelInit T)

/-- The error raised by the `tf.while_loop` shape-invariant validation. -/
def hankelInvariantMsg : String :=
  "hankel: while_loop shape invariant (batch, None, K, feat) is incompatible with the initial window tensor"

/-- Source lines 29 to 45, `hankel(T, K)` for an input of shape
`(bs, L, feat)`.  The initial loop variable `T[:, tf.newaxis, :K]` has shape
`(bs, 1, min K L, feat)` (slices clamp like Python), and `tf.while_loop`
validates it against the declared shape invariant
`(bs, None, K, feat)` before running, failing when `min K L ≠ K`.
On success the result is the shape `(bs, len, K, feat)` together with the
window data. -/
def hankel {α : Type} (bs L feat : Nat) (T : Ten3 α) (K : Nat) :
    Except String (List Nat × Ten4 α) :=
  if min K L = K then
    .ok ([bs, (hankelRun L K T).1, K, feat], (hankelRun L K T).2)
  else
    .error hankelInvariantMsg

/-! ## The reshaping chain of `dmd` (source lines 73 to 86)

These definitions are pure reindexing, so they are stated for an arbitrary
scalar type.  Row-major reshapes become division/modulus index arithmetic. -/

/-- Source line 76: `t = tf.reshape(trajectories, (bs, n, m**2))` — flatten
each `m × m` density matrix to a vector of length `m ^ 2`. -/
def dmdVec {α : Type} (m : Nat) (traj : Ten4 α) : Ten3 α :=
  fun b i q => traj b i (q / m) (q % m)

/-- Source line 78: `t = hankel(t, K)` — the window data of the Hankel
tensor of shape `(bs, n - K + 1, K, m ^ 2)`. -/
def dmdHank {α : Type} (n m K : Nat) (traj : Ten4 α) : Ten4 α :=
  (hankelRun n K (dmdVec m traj)).2

/-- Source line 80: `t = tf.reshape(t, (bs, n - K + 1, K * (m ** 2)))`. -/
def dmdT2 {α : Type} (n m K : Nat) (traj : Ten4 α) : Ten3 α :=
  fun b i f => dmdHank n m K traj b i (f / m ^ 2) (f % m ^ 2)

/-- Source line 81: `t = tf.transpose(t, (2, 0, 1))` — feature axis first. -/
def dmdT3 {α : Type} (n m K : Nat) (traj : Ten4 α) : Ten3 α :=
  fun f b i => dmdT2 n m K traj b i f

/-- Source lines 82 and 85: `X = t[..., :-1]` then
`X_resh = tf.reshape(X, (K*(m**2), bs*(n-K)))` — sample column `j` is
window `j % (n - K)` of trajectory `j / (n - K)`. -/
def dmdX {α : Type} (n m K : Nat) (traj : Ten4 α) : Mat α :=
  fun f j => dmdT3 n m K traj f (j / (n - K)) (j % (n - K))

/-- Source lines 83 and 86: `Y = t[..., 1:]` then
`Y_resh = tf.reshape(Y, (K*(m**2), bs*(n-K)))` — sample column `j` is
window `j % (n - K) + 1` of trajectory `j / (n - K)`. -/
def dmdY {α : Type} (n m K : Nat) (traj : Ten4 α) : Mat α :=
  fun f j => dmdT3 n m K traj f (j / (n - K)) (j % (n - K) + 1)

/-! ## Matrix algebra over a star field -/

/-- Matrix product with explicit inner dimension `d` (the shared dimension
that the source shapes give to each `@` product). -/
def mulMat {𝕜 : Type} [Field 𝕜] (d : Nat) (A B : Mat 𝕜) : Mat 𝕜 :=
  fun i j => ∑ t ∈ Finset.range d, A i t * B t j

/-- `tf.linalg.adjoint`: conjugate transpose. -/
def adjointM {𝕜 : Type} [Star 𝕜] (A : Mat 𝕜) : Mat 𝕜 := fun i j => star (A j i)

/-- Diagonal matrix with diagonal `w`.  Used only by the spec-side
definitions: the source scales columns elementwise instead of materializing
`diag(1/σ)`. -/
def diagOf {𝕜 : Type} [Field 𝕜] (w : Nat → 𝕜) : Mat 𝕜 := fun i j => if i = j then w i else 0

/-- The results of the library primitives that `dmd` calls
(`tf.linalg.svd` of `X_resh`, `tf.linalg.eig` of `T_tilda`,
`tf.linalg.inv` of the reduced right eigenvectors, and `tf.math.sqrt`),
provided as oracle inputs to the embedded pipeline. -/
structure DmdOracle (𝕜 : Type) where
  /-- number of singular values returned by the SVD -/
  p : Nat
  /-- singular values (real, modelled exactly as rationals) -/
  s : Nat → ℚ
  /-- left singular vectors, shape `(K·m², p)` -/
  u : Mat 𝕜
  /-- right singular vectors, shape `(bs·(n−K), p)` -/
  v : Mat 𝕜
  /-- eigenvalues of the reduced operator returned by `tf.linalg.eig` -/
  evals : Nat → 𝕜
  /-- right eigenvectors of the reduced operator, one per column -/
  right : Mat 𝕜
  /-- the matrix inverse of `right` as computed by `tf.linalg.inv` -/
  rinv : Mat 𝕜
  /-- the entrywise square root `tf.math.sqrt` -/
  sqrtc : 𝕜 → 𝕜

/-- `(s, u, v)` is a singular value decomposition of the `rows × cols`
matrix `X` with `p` singular values: nonnegative singular values in
descending order, `X = U · diag(σ) · Vᴴ`, and orthonormal columns of `U`
and `V`. -/
def isSVD {𝕜 : Type} [Field 𝕜] [StarRing 𝕜] (rows cols p : Nat) (X : Mat 𝕜)
    (s : Nat → ℚ) (u v : Mat 𝕜) : Prop :=
  (∀ i, i < p → 0 ≤ s i) ∧
  (∀ j, j < p → ∀ i, i ≤ j → s j ≤ s i) ∧
  (∀ i, i < rows → ∀ j, j < cols →
    X i j = ∑ t ∈ Finset.range p, u i t * ((s t : ℚ) : 𝕜) * star (v j t)) ∧
  (∀ t1, t1 < p → ∀ t2, t2 < p →
    (∑ i ∈ Finset.range rows, star (u i t1) * u i t2) = if t1 = t2 then (1 : 𝕜) else 0) ∧
  (∀ t1, t1 < p → ∀ t2, t2 < p →
    (∑ i ∈ Finset.range cols, star (v i t1) * v i t2) = if t1 = t2 then (1 : 𝕜) else 0)

/-- `(vals, R)` is an eigendecomposition of the `d × d` matrix `A`:
`A · R[:,j] = vals j · R[:,j]` for each column `j`. -/
def isEigPairs {𝕜 : Type} [Field 𝕜] (d : Nat) (A : Mat 𝕜) (vals : Nat → 𝕜) (R : Mat 𝕜) : Prop :=
  ∀ j, j < d → ∀ i, i < d → (∑ t ∈ Finset.range d, A i t * R t j) = vals j * R i j

/-- `Ri` is a two-sided inverse of the `d × d` matrix `R`. -/
def isInverseOf {𝕜 : Type} [Field 𝕜] (d : Nat) (R Ri : Mat 𝕜) : Prop :=
  ∀ i, i < d → ∀ j, j < d →
    mulMat d R Ri i j = (if i = j then (1 : 𝕜) else 0) ∧
    mulMat d Ri R i j = (if i = j then (1 : 𝕜) else 0)

/-! ## The `dmd` pipeline (source lines 88 to 109) -/

/-- Source line 90: `ind = tf.reduce_sum(tf.cast(lmbd > eps, tf.int32))` —
the retained rank is the number of singular values strictly above the
tolerance. -/
def dmdInd {𝕜 : Type} (O : DmdOracle 𝕜) (eps : ℚ) : Nat :=
  ((Finset.range O.p).filter fun i => eps < O.s i).card

/-- Source lines 92 to 94: `lmbd_inv = tf.cast(1 / lmbd[:ind], dtype)` —
reciprocal singular values cast to the complex dtype.  (The truncation to
the first `ind` entries shows up as the summation bounds downstream.) -/
def dmdSinv {𝕜 : Type} [Field 𝕜] (O : DmdOracle 𝕜) : Nat → 𝕜 :=
  fun i => ((1 / O.s i : ℚ) : 𝕜)

/-- Source line 98, the factor `(v * lmbd_inv)`: elementwise broadcast of
the reciprocal singular values across the columns of `v`. -/
def dmdVL {𝕜 : Type} [Field 𝕜] (O : DmdOracle 𝕜) : Mat 𝕜 :=
  fun i j => O.v i j * dmdSinv O j

/-- Source line 98: `T_tilda = tf.linalg.adjoint(u) @ Y_resh @ (v * lmbd_inv)`
(matrix products associate to the left, with inner dimensions `K·m²` and
`bs·(n−K)`). -/
def dmdTtilda {𝕜 : Type} [Field 𝕜] [StarRing 𝕜] (bs n m K : Nat) (traj : Ten4 𝕜)
    (O : DmdOracle 𝕜) : Mat 𝕜 :=
  mulMat (bs * (n - K)) (mulMat (K * m ^ 2) (adjointM O.u) (dmdY n m K traj)) (dmdVL O)

/-- Source line 102: `right = Y_resh @ (v * lmbd_inv) @ right` — the lifted
(full-space) right eigenvectors, prior to normalization. -/
def dmdRightLift {𝕜 : Type} [Field 𝕜] (bs n m K : Nat) (traj : Ten4 𝕜)
    (O : DmdOracle 𝕜) (eps : ℚ) : Mat 𝕜 :=
  mulMat (dmdInd O eps) (mulMat (bs * (n - K)) (dmdY n m K traj) (dmdVL O)) O.right

/-- Source lines 100 and 103: `left = u @ tf.linalg.adjoint(tf.linalg.inv(right))`
— the lifted (full-space) left eigenvectors, prior to normalization. -/
def dmdLeftLift {𝕜 : Type} [Field 𝕜] [StarRing 𝕜] (O : DmdOracle 𝕜) (eps : ℚ) : Mat 𝕜 :=
  mulMat (dmdInd O eps) O.u (adjointM O.rinv)

/-- Source lines 104 and 105: `norm = tf.reduce_sum(adjoint(left) * transpose(right), -1)`
— the per-mode inner product `∑_f conj(L[f,j]) · R[f,j]` before the square
root is taken. -/
def dmdNormSq {𝕜 : Type} [Field 𝕜] [StarRing 𝕜] (bs n m K : Nat) (traj : Ten4 𝕜)
    (O : DmdOracle 𝕜) (eps : ℚ) : Nat → 𝕜 :=
  fun j => ∑ f ∈ Finset.range (K * m ^ 2),
    star (dmdLeftLift O eps f j) * dmdRightLift bs n m K traj O eps f j

/-- Source line 106: `norm = tf.math.sqrt(norm)`. -/
def dmdNorm {𝕜 : Type} [Field 𝕜] [StarRing 𝕜] (bs n m K : Nat) (traj : Ten4 𝕜)
    (O : DmdOracle 𝕜) (eps : ℚ) : Nat → 𝕜 :=
  fun j => O.sqrtc (dmdNormSq bs n m K traj O eps j)

/-- Source line 107: `right = right / norm` (columnwise broadcast). -/
def dmdRightOut {𝕜 : Type} [Field 𝕜] [StarRing 𝕜] (bs n m K : Nat) (traj : Ten4 𝕜)
    (O : DmdOracle 𝕜) (eps : ℚ) : Mat 𝕜 :=
  fun f j => dmdRightLift bs n m K traj O eps f j / dmdNorm bs n m K traj O eps j

/-- Source line 108: `left = left / tf.math.conj(norm)` (columnwise
broadcast). -/
def dmdLeftOut {𝕜 : Type} [Field 𝕜] [StarRing 𝕜] (bs n m K : Nat) (traj : Ten4 𝕜)
    (O : DmdOracle 𝕜) (eps : ℚ) : Mat 𝕜 :=
  fun f j => dmdLeftLift O eps f j / star (dmdNorm bs n m K traj O eps j)

/-- Source lines 49 to 109, `dmd(trajectories, K, eps)`: runs the pipeline
and returns `(eig_vals, right, left)`.  The only failure path of the source
graph construction on this route is the hankel shape-invariant check. -/
def dmd {𝕜 : Type} [Field 𝕜] [StarRing 𝕜] (bs n m K : Nat) (traj : Ten4 𝕜)
    (O : DmdOracle 𝕜) (eps : ℚ) : Except String ((Nat → 𝕜) × Mat 𝕜 × Mat 𝕜) :=
  Except.map
    (fun _ => (O.evals, dmdRightOut bs n m K traj O eps, dmdLeftOut bs n m K traj O eps))
    (hankel bs n (m ^ 2) (dmdVec m traj) K)

/-! ## Spec-side formulas (written from the specification text, for the
refinement claim C1) -/

/-- Spec formula `T̃ = Uᴴ · Y · V · diag(1/σ)` with an explicit diagonal
matrix, truncated to rank `r`. -/
def specTtilda {𝕜 : Type} [Field 𝕜] [StarRing 𝕜] (bs n m K : Nat) (traj : Ten4 𝕜)
    (O : DmdOracle 𝕜) (eps : ℚ) : Mat 𝕜 :=
  mulMat (dmdInd O eps)
    (mulMat (bs * (n - K)) (mulMat (K * m ^ 2) (adjointM O.u) (dmdY n m K traj)) O.v)
    (diagOf (dmdSinv O))

/-- Spec formula `R = Y · V · diag(1/σ) · R̃` (full-space right
eigenvectors before normalization). -/
def specRightLift {𝕜 : Type} [Field 𝕜] [StarRing 𝕜] (bs n m K : Nat) (traj : Ten4 𝕜)
    (O : DmdOracle 𝕜) (eps : ℚ) : Mat 𝕜 :=
  mulMat (dmdInd O eps)
    (mulMat (dmdInd O eps) (mulMat (bs * (n - K)) (dmdY n m K traj) O.v) (diagOf (dmdSinv O)))
    O.right

/-- Spec formula `L = U · (R̃⁻¹)ᴴ` (full-space left eigenvectors before
normalization). -/
def specLeftLift {𝕜 : Type} [Field 𝕜] [StarRing 𝕜] (O : DmdOracle 𝕜) (eps : ℚ) : Mat 𝕜 :=
  mulMat (dmdInd O eps) O.u (adjointM O.rinv)

/-! ## The `pinv` function (source lines 137 to 153), rank-2 route -/

/-- Source line 147: `ind = tf.reduce_sum(tf.cast(s > eps, tf.int32))` —
the retained rank is the count of singular values strictly above `eps`. -/
def pinvInd (p : Nat) (s : Nat → ℚ) (eps : ℚ) : Nat :=
  ((Finset.range p).filter fun i => eps < s i).card

/-- Source lines 137 to 153 for a rank-2 input `X` of shape `(a, b)` with
SVD oracle `(s, u, v)` (`p` singular values): truncate `u`, `v`, `s` to the
first `ind` columns/entries (slices clamp, hence `min ind p`), form
`s_inv = 1 / s` cast to the dtype, and return `(v * s_inv) @ adjoint(u)`,
a matrix of shape `(b, a)`.  `X` itself enters only through its SVD
oracle. -/
def pinv {𝕜 : Type} [Field 𝕜] [StarRing 𝕜] (p : Nat) (_X : Mat 𝕜) (s : Nat → ℚ)
    (u v : Mat 𝕜) (eps : ℚ) : Mat 𝕜 :=
  mulMat (min (pinvInd p s eps) p) (fun i j => v i j * ((1 / s j : ℚ) : 𝕜)) (adjointM u)

/-- Spec formula for the truncated pseudoinverse `V · diag(1/σ₁..σᵣ) · Uᴴ`
with an explicit diagonal matrix of reciprocal retained singular values. -/
def specPinv {𝕜 : Type} [Field 𝕜] [StarRing 𝕜] (p : Nat) (s : Nat → ℚ) (u v : Mat 𝕜)
    (eps : ℚ) : Mat 𝕜 :=
  mulMat (pinvInd p s eps)
    (mulMat (pinvInd p s eps) v (diagOf fun j => ((1 / s j : ℚ) : 𝕜)))
    (adjointM u)

/-! ## The `pinv` function on batched (rank-3) input -/

/-- Dimension compatibility for numpy-style broadcasting. -/
def bcompat (d e : Nat) : Bool := d == e || d == 1 || e == 1

/-- Index into a possibly broadcast axis: a size-1 axis is pinned to 0. -/
def bidx (d i : Nat) : Nat := if d = 1 then 0 else i

/-- Elementwise multiply of a rank-3 tensor of shape `(d0, d1, d2)` with a
rank-2 tensor of shape `(e0, e1)` under broadcasting (the rank-2 operand is
padded with a leading 1). -/
def mulB32 {𝕜 : Type} [Field 𝕜] (d0 d1 d2 e0 e1 : Nat) (A : Ten3 𝕜) (B : Mat 𝕜) :
    Except String ((Nat × Nat × Nat) × Ten3 𝕜) :=
  if bcompat d1 e0 && bcompat d2 e1 then
    .ok ((d0, max d1 e0, max d2 e1),
      fun i j k => A i (bidx d1 j) (bidx d2 k) * B (bidx e0 j) (bidx e1 k))
  else .error "elementwise multiply: incompatible broadcast shapes"

/-- `tf.linalg.adjoint` of a rank-3 tensor: swap the two trailing axes and
conjugate. -/
def adj3 {𝕜 : Type} [Star 𝕜] (d0 d1 d2 : Nat) (A : Ten3 𝕜) : (Nat × Nat × Nat) × Ten3 𝕜 :=
  ((d0, d2, d1), fun i j k => star (A i k j))

/-- Batched `tf.matmul` of rank-3 tensors with broadcasting batch axes; the
contracted dimensions must agree exactly. -/
def matmul33 {𝕜 : Type} [Field 𝕜] (d0 d1 d2 e0 e1 e2 : Nat) (A B : Ten3 𝕜) :
    Except String ((Nat × Nat × Nat) × Ten3 𝕜) :=
  if (d2 == e1) && bcompat d0 e0 then
    .ok ((max d0 e0, d1, e2),
      fun i j k => ∑ t ∈ Finset.range d2, A (bidx d0 i) j t * B (bidx e0 i) t k)
  else .error "matmul: incompatible dimensions"

/-- Source lines 137 to 153 on a batched rank-3 input `X` of shape
`(c, a, b)`, with the batched SVD oracle `s : (c, p)`, `u : (c, a, p)`,
`v : (c, b, p)` where `p = min a b`.  Following the source text exactly:
`ind` counts every singular value of every batch member above `eps` (the
`reduce_sum` has no axis argument), `u[:, :ind]` and `v[:, :ind]` slice the
second axis — for rank-3 input that is the row axis, not the singular-value
axis — and `s[:ind]` slices the batch axis.  The two final products follow
broadcast semantics. -/
def pinv3 {𝕜 : Type} [Field 𝕜] [StarRing 𝕜] (c a b : Nat) (_X : Ten3 𝕜)
    (s : Nat → Nat → ℚ) (u v : Ten3 𝕜) (eps : ℚ) :
    Except String ((Nat × Nat × Nat) × Ten3 𝕜) :=
  let p := min a b
  let ind := ((Finset.range c ×ˢ Finset.range p).filter fun ij => eps < s ij.1 ij.2).card
  let sInv : Mat 𝕜 := fun i j => ((1 / s i j : ℚ) : 𝕜)
  match mulB32 c (min ind b) p (min ind c) p v sInv with
  | .error e => .error e
  | .ok ((m0, m1, m2), M) => matmul33 m0 m1 m2 c p (min ind a) M (adj3 c (min ind a) p u).2

/-- Extract the shape of a successful shaped-tensor result. -/
def okFst {ε α β : Type} (e : Except ε (α × β)) : Option α :=
  match e with
  | .ok x => some x.1
  | .error _ => none

/-! ## The `solve_regression` function (source lines 112 to 134) -/

/-- Source lines 129 and 130: the count of singular values above the fixed
internal tolerance `1e-8`.  `solve_regression` takes no tolerance argument,
so no caller-supplied `eps` can influence this. -/
def srInd (p : Nat) (s : Nat → ℚ) : Nat :=
  ((Finset.range p).filter fun i => (1 : ℚ) / 100000000 < s i).card

/-- Source line 131: `s_inv = tf.concat([1 / s[:ind], s[ind:]], axis=0)` —
reciprocals of the first `ind` singular values followed by the remaining
singular values themselves (neither zero nor reciprocals). -/
def srW (p : Nat) (s : Nat → ℚ) : Nat → ℚ :=
  fun i => if i < srInd p s then 1 / s i else s i

/-- The weight vector as the claim states it, by value rather than by
position: `w i = 1/σ i` when `σ i > 1e-8`, and `w i = σ i` itself
otherwise. -/
def srWClaim (s : Nat → ℚ) : Nat → ℚ :=
  fun t => if (1 : ℚ) / 100000000 < s t then 1 / s t else s t

/-- The claim-side weight vector cast into the complex dtype. -/
def srWClaimK {𝕜 : Type} [Field 𝕜] (s : Nat → ℚ) : Nat → 𝕜 :=
  fun t => ((srWClaim s t : ℚ) : 𝕜)

/-- Source line 133: `X_pinv = (v * s_inv) @ tf.linalg.adjoint(u)` — note
that all `p` columns take part (no truncation of `u`, `v`). -/
def srXpinv {𝕜 : Type} [Field 𝕜] [StarRing 𝕜] (p : Nat) (s : Nat → ℚ) (u v : Mat 𝕜) : Mat 𝕜 :=
  mulMat p (fun i j => v i j * ((srW p s j : ℚ) : 𝕜)) (adjointM u)

/-- Source lines 112 to 134, `solve_regression(X, Y)` for 2-D inputs
(where the initial reshapes are the identity): `Y_resh @ X_pinv`, with `q`
the shared sample dimension and `(s, u, v)` the SVD oracle of `X_resh`
(`X` enters only through it). -/
def solve_regression {𝕜 : Type} [Field 𝕜] [StarRing 𝕜] (q p : Nat) (_X Y : Mat 𝕜)
    (s : Nat → ℚ) (u v : Mat 𝕜) : Mat 𝕜 :=
  mulMat q Y (srXpinv p s u v)

/-! ## Concrete instances used by witnesses and counterexamples -/

/-- Batched singular values for the C9 counterexample input. -/
def cxS : Nat → Nat → ℚ := fun i _ => if i = 0 then 2 else 3

/-- Batched singular vectors (all `1 × 1` identity blocks) for the C9
counterexample input. -/
def cxU : Ten3 ℚ := fun _ _ _ => 1

/-- The batched input of shape `(2, 1, 1)` for the C9 counterexample: the
two `1 × 1` matrices `[[2]]` and `[[3]]`. -/
def cxX : Ten3 ℚ := fun i _ _ => if i = 0 then 2 else 3

/-- The all-ones rational matrix (concrete orthonormal `1 × 1` factor). -/
def wOne : Mat ℚ := fun _ _ => 1

/-- The constant `1 × 1` matrix `[[2]]`. -/
def wX2 : Mat ℚ := fun _ _ => 2

/-- The constant `1 × 1` matrix `[[3]]`. -/
def wY3 : Mat ℚ := fun _ _ => 3

/-- The singular-value list `[2]`. -/
def wS2 : Nat → ℚ := fun _ => 2

/-- A constant trajectory batch over `ℚ` (star is the identity):
`bs = 1`, `n = 2`, `m = 1`, all entries 1. -/
def wTraj : Ten4 ℚ := fun _ _ _ _ => 1

/-- The exact oracle for `wTraj` with `K = 1`: the design matrices are the
`1 × 1` matrices `X = [1]`, `Y = [1]`, whose SVD is `σ = [1]`,
`U = V = [[1]]`, with reduced operator `T̃ = [1]`, eigenvalue 1,
eigenvector `[1]`, inverse `[1]`, and the identity as square root (the
only value it is applied to is 1). -/
def wOracle : DmdOracle ℚ :=
  ⟨1, fun _ => 1, fun _ _ => 1, fun _ _ => 1, fun _ => 1, fun _ _ => 1, fun _ _ => 1, fun z => z⟩

/-- The default tolerance `eps = 1e-5` of the source. -/
def wEps : ℚ := 1 / 100000

/-- A decaying-to-zero trajectory batch over `ℚ`: `bs = 1`, `n = 2`,
`m = 1`, time step 0 holds 1 and time step 1 holds 0.  With `K = 1` the
design matrices are `X = [1]`, `Y = [0]`. -/
def cTraj : Ten4 ℚ := fun _ i _ _ => if i = 0 then 1 else 0

/-- The exact oracle for `cTraj` with `K = 1`: SVD of `X = [1]` is
`σ = [1]`, `U = V = [[1]]`; the reduced operator is `T̃ = [0]` with
eigenvalue 0, eigenvector `[1]`, inverse `[1]`; the square root oracle maps
0 to 0 (the only value it is applied to). -/
def cOracle : DmdOracle ℚ :=
  ⟨1, fun _ => 1, fun _ _ => 1, fun _ _ => 1, fun _ => 0, fun _ _ => 1, fun _ _ => 1, fun _ => 0⟩

/-! # Theorems -/

/-! ## Closed form of the hankel loop -/

/-- Invariant-based closed form of the hankel loop: starting at counter `i`
with `i` correct windows and enough fuel, the loop ends with
`max i (L - K + 1)` windows, window `j` holding `T b (j + k) f`. -/
theorem hankelLoop_run {α : Type} (L K : Nat) (T : Ten3 α) :
    ∀ fuel i t, L - K + 1 ≤ i + fuel → 1 ≤ i →
      (∀ b j k f, j < i → t b j k f = T b (j + k) f) →
      (hankelLoop L K T fuel i i t).1 = max i (L - K + 1) ∧
      ∀ b j k f, j < max i (L - K + 1) →
        (hankelLoop L K T fuel i i t).2 b j k f = T b (j + k) f := by
  intro fuel
  induction fuel with
  | zero =>
    intro i t hfuel _hi hinv
    have hmax : max i (L - K + 1) = i := by omega
    rw [hmax]
    exact ⟨rfl, fun b j k f hj => hinv b j k f hj⟩
  | succ fuel ih =>
    intro i t hfuel hi hinv
    by_cases hc : i ≤ L - K
    · have hnew : ∀ b j k f, j < i + 1 →
          hconcat t i (hwindow T i) b j k f = T b (j + k) f := by
        intro b j k f hj
        by_cases hji : j < i
        · simp only [hconcat, if_pos hji]
          exact hinv b j k f hji
        · have hji2 : j = i := by omega
          subst hji2
          simp [hconcat, hwindow]
      have hrec := ih (i + 1) (hconcat t i (hwindow T i)) (by omega) (by omega) hnew
      have hmax : max (i + 1) (L - K + 1) = max i (L - K + 1) := by omega
      rw [hmax] at hrec
      simpa only [hankelLoop, if_pos hc] using hrec
    · have hmax : max i (L - K + 1) = i := by omega
      rw [hmax]
      refine ⟨?_, ?_⟩
      · simp [hankelLoop, if_neg hc]
      · intro b j k f hj
        simp only [hankelLoop, if_neg hc]
        exact hinv b j k f hj

/-- The hankel loop produces exactly `L - K + 1` windows. -/
theorem hankelRun_fst {α : Type} (L K : Nat) (T : Ten3 α) :
    (hankelRun L K T).1 = L - K + 1 := by
  have h := hankelLoop_run L K T (L + 1) 1 (hankelInit T) (by omega) le_rfl
    (fun b j k f hj => by
      have : j = 0 := by omega
      simp [hankelInit, this])
  have hmax : max 1 (L - K + 1) = L - K + 1 := by omega
  rw [hankelRun]
  rw [hmax] at h
  exact h.1

/-- Element law of the hankel embedding: window `i`, offset `k` holds the
input at time `i + k`. -/
theorem hankelRun_elem {α : Type} (L K : Nat) (T : Ten3 α) (b i k f : Nat)
    (hi : i < L - K + 1) : (hankelRun L K T).2 b i k f = T b (i + k) f := by
  have h := hankelLoop_run L K T (L + 1) 1 (hankelInit T) (by omega) le_rfl
    (fun b j k f hj => by
      have : j = 0 := by omega
      simp [hankelInit, this])
  have hmax : max 1 (L - K + 1) = L - K + 1 := by omega
  rw [hmax] at h
  exact h.2 b i k f hi

/-! ## Claim C2 -/

/-- C2: for an input tensor of shape `(bs, L, feat)` and `1 ≤ K ≤ L`,
`hankel` succeeds and returns a tensor of shape `(bs, L - K + 1, K, feat)`
whose element `(b, i, k, f)` equals the input element `(b, i + k, f)` for
every valid `b`, `i`, `k`, `f`. -/
theorem hankel_shape_and_elements {α : Type} (bs L feat : Nat) (T : Ten3 α) (K : Nat)
    (_h1 : 1 ≤ K) (h2 : K ≤ L) :
    hankel bs L feat T K = .ok ([bs, L - K + 1, K, feat], (hankelRun L K T).2) ∧
    ∀ b i k f, i < L - K + 1 → k < K → (hankelRun L K T).2 b i k f = T b (i + k) f := by
  constructor
  · rw [hankel, if_pos (min_eq_left h2), hankelRun_fst]
  · intro b i k f hi _hk
    exact hankelRun_elem L K T b i k f hi

/-- Witness for C2 at a concrete input: `bs = 1`, `L = 2`, `feat = 1`,
`K = 1`, `T b i f = i`. -/
theorem hankel_shape_and_elements_witness :
    hankel 1 2 1 (fun _ i _ => i) 1
        = .ok ([1, 2 - 1 + 1, 1, 1], (hankelRun 2 1 (fun _ i _ => i)).2) ∧
    ∀ b i k f, i < 2 - 1 + 1 → k < 1 →
      (hankelRun 2 1 (fun _ i _ => i)).2 b i k f = i + k :=
  hankel_shape_and_elements 1 2 1 (fun _ i _ => i) 1 (by decide) (by decide)

/-! ## Claim C7 (corrected) -/

/-- Counterexample to C7: at `K = 0` (so `K < 1`), `hankel` does not fail.
The initial window `T[:, newaxis, :0]` has length `min 0 L = 0 = K`, so the
shape-invariant check passes, the loop runs for `i = 1 .. L`, and the call
returns a tensor of shape `(bs, L + 1, 0, feat)` — here `(1, 3, 0, 1)` —
with no error at all. -/
theorem hankel_k_zero_no_failure_cex :
    (match hankel 1 2 1 (fun _ _ _ => (0 : Nat)) 0 with
      | .ok x => some x.1
      | .error _ => none) = some [1, 3, 0, 1] := by
  decide

/-- C7 amended: `hankel` fails with the descriptive shape-invariant error,
before the loop body does any numeric work, when `K > L`; for `K = 0` it
instead succeeds with empty windows (see the counterexample), and for
`1 ≤ K ≤ L` it succeeds (claim C2). -/
theorem hankel_fails_when_K_gt_L {α : Type} (bs L feat : Nat) (T : Ten3 α) (K : Nat)
    (h : L < K) : hankel bs L feat T K = .error hankelInvariantMsg := by
  rw [hankel, if_neg]
  rw [min_eq_right (le_of_lt h)]
  omega

/-- Witness for the amended C7 at `L = 2 < K = 3`. -/
theorem hankel_fails_when_K_gt_L_witness :
    hankel 1 2 1 (fun _ _ _ => (0 : Nat)) 3 = .error hankelInvariantMsg :=
  hankel_fails_when_K_gt_L 1 2 1 (fun _ _ _ => (0 : Nat)) 3 (by decide)

/-! ## Claim C3 -/

/-- C3: every sample column `j` of the design matrices `X_resh` and
`Y_resh` draws all of its entries from the single trajectory
`b = j / (n - K)` (no column mixes two trajectories), and the `Y_resh`
column is the `X_resh` column advanced by exactly one time step within that
trajectory: entry `f` of column `j` of `X_resh` is the flattened trajectory
at time `j % (n - K) + f / m²`, and the same entry of `Y_resh` is the
flattened trajectory at time `j % (n - K) + 1 + f / m²`. -/
theorem design_matrices_shift_within_trajectory {α : Type} (bs n m K : Nat) (traj : Ten4 α)
    (_hK : 1 ≤ K) (hn : K + 1 ≤ n) (j : Nat) (hj : j < bs * (n - K)) :
    j / (n - K) < bs ∧ j % (n - K) < n - K ∧
    ∀ f, f < K * m ^ 2 →
      dmdX n m K traj f j
          = dmdVec m traj (j / (n - K)) (j % (n - K) + f / m ^ 2) (f % m ^ 2) ∧
      dmdY n m K traj f j
          = dmdVec m traj (j / (n - K)) (j % (n - K) + 1 + f / m ^ 2) (f % m ^ 2) := by
  have hpos : 0 < n - K := by omega
  refine ⟨?_, Nat.mod_lt j hpos, ?_⟩
  · rw [Nat.div_lt_iff_lt_mul hpos]
    omega
  · intro f _hf
    have hx : j % (n - K) < n - K + 1 := by
      have := Nat.mod_lt j hpos
      omega
    have hy : j % (n - K) + 1 < n - K + 1 := by
      have := Nat.mod_lt j hpos
      omega
    constructor
    · simp only [dmdX, dmdT3, dmdT2, dmdHank]
      rw [hankelRun_elem n K (dmdVec m traj) _ _ _ _ hx]
    · simp only [dmdY, dmdT3, dmdT2, dmdHank]
      rw [hankelRun_elem n K (dmdVec m traj) _ _ _ _ hy]

/-- Witness for C3 at a concrete input: `bs = 1`, `n = 2`, `m = 1`,
`K = 1`, column `j = 0`, `traj b i r c = i`. -/
theorem design_matrices_shift_within_trajectory_witness :
    0 / (2 - 1) < 1 ∧ 0 % (2 - 1) < 2 - 1 ∧
    ∀ f, f < 1 * 1 ^ 2 →
      dmdX 2 1 1 (fun _ i _ _ => i) f 0
          = dmdVec 1 (fun _ i _ _ => i) (0 / (2 - 1)) (0 % (2 - 1) + f / 1 ^ 2) (f % 1 ^ 2) ∧
      dmdY 2 1 1 (fun _ i _ _ => i) f 0
          = dmdVec 1 (fun _ i _ _ => i) (0 / (2 - 1)) (0 % (2 - 1) + 1 + f / 1 ^ 2) (f % 1 ^ 2) :=
  design_matrices_shift_within_trajectory 1 2 1 1 (fun _ i _ _ => i) (by decide) (by decide)
    0 (by decide)

/-! ## Matrix algebra lemmas -/

/-- Multiplying by a column-scaled matrix equals multiplying by the matrix
and then scaling the column. -/
theorem mulMat_colmul {𝕜 : Type} [Field 𝕜] (d : Nat) (A B : Mat 𝕜) (w : Nat → 𝕜) (i j : Nat) :
    mulMat d A (fun q t => B q t * w t) i j = mulMat d A B i j * w j := by
  simp only [mulMat]
  rw [Finset.sum_mul]
  exact Finset.sum_congr rfl fun t _ => by ring

/-- Multiplying by `(v * lmbd_inv)` equals multiplying by `v` and then
scaling the column by the reciprocal singular value. -/
theorem mulMat_vl {𝕜 : Type} [Field 𝕜] (d : Nat) (A : Mat 𝕜) (O : DmdOracle 𝕜) (i j : Nat) :
    mulMat d A (dmdVL O) i j = mulMat d A O.v i j * dmdSinv O j := by
  simp only [mulMat, dmdVL]
  rw [Finset.sum_mul]
  exact Finset.sum_congr rfl fun t _ => by ring

/-- Multiplying by a diagonal matrix scales the columns, for column indices
inside the inner dimension. -/
theorem mulMat_diag {𝕜 : Type} [Field 𝕜] (d : Nat) (A : Mat 𝕜) (w : Nat → 𝕜) (i j : Nat)
    (hj : j < d) : mulMat d A (diagOf w) i j = A i j * w j := by
  simp only [mulMat, diagOf]
  rw [Finset.sum_eq_single_of_mem j (Finset.mem_range.2 hj)
    (fun b _ hb => by simp [if_neg hb])]
  simp

/-- Two products agree when the left factors agree on the inner range. -/
theorem mulMat_congr_left {𝕜 : Type} [Field 𝕜] (d : Nat) (A A2 B : Mat 𝕜) (i j : Nat)
    (h : ∀ t, t < d → A i t = A2 i t) : mulMat d A B i j = mulMat d A2 B i j := by
  simp only [mulMat]
  exact Finset.sum_congr rfl fun t ht => by rw [h t (Finset.mem_range.1 ht)]

/-! ## Claim C1 -/

/-- C1: `dmd` computes its result by the exact-DMD pipeline.  Given the SVD
`(σ, U, V)` of the design matrix `X_resh`, it retains rank
`r = #{i | σ i > ε}`; the reduced operator equals the spec formula
`T̃ = Uᴴ·Y·V·diag(1/σ)` (of shape `r × r`); with the eigendecomposition
`(λ, R̃)` of `T̃` and the inverse `R̃⁻¹`, the pre-normalization lifted
eigenvectors equal the spec formulas `R = Y·V·diag(1/σ)·R̃` and
`L = U·(R̃⁻¹)ᴴ`; and `dmd` returns `λ` together with the per-mode
normalized `R` and `L`. -/
theorem dmd_exact_pipeline {𝕜 : Type} [Field 𝕜] [StarRing 𝕜] (bs n m K : Nat)
    (traj : Ten4 𝕜) (O : DmdOracle 𝕜) (eps : ℚ)
    (_hK : 1 ≤ K) (hn : K + 1 ≤ n)
    (_hsvd : isSVD (K * m ^ 2) (bs * (n - K)) O.p (dmdX n m K traj) O.s O.u O.v)
    (_heig : isEigPairs (dmdInd O eps) (dmdTtilda bs n m K traj O) O.evals O.right)
    (_hinv : isInverseOf (dmdInd O eps) O.right O.rinv) :
    dmdInd O eps = ((Finset.range O.p).filter fun i => eps < O.s i).card ∧
    (∀ i, i < dmdInd O eps → ∀ j, j < dmdInd O eps →
      dmdTtilda bs n m K traj O i j = specTtilda bs n m K traj O eps i j) ∧
    (∀ f, f < K * m ^ 2 → ∀ j, j < dmdInd O eps →
      dmdRightLift bs n m K traj O eps f j = specRightLift bs n m K traj O eps f j) ∧
    (∀ f, f < K * m ^ 2 → ∀ j, j < dmdInd O eps →
      dmdLeftLift O eps f j = specLeftLift O eps f j) ∧
    dmd bs n m K traj O eps
      = .ok (O.evals, dmdRightOut bs n m K traj O eps, dmdLeftOut bs n m K traj O eps) := by
  refine ⟨rfl, ?_, ?_, ?_, ?_⟩
  · intro i _hi j hj
    simp only [dmdTtilda, specTtilda]
    rw [mulMat_vl, mulMat_diag _ _ _ _ _ hj]
  · intro f _hf j _hj
    simp only [dmdRightLift, specRightLift]
    refine mulMat_congr_left _ _ _ _ _ _ ?_
    intro t ht
    rw [mulMat_vl, mulMat_diag _ _ _ _ _ ht]
  · intro f _hf j _hj
    rfl
  · have hKn : min K n = K := min_eq_left (by omega)
    simp [dmd, hankel, hKn, Except.map]

/-! ## Evaluation lemmas for the `wTraj` instance -/

/-- The retained rank of the `wTraj` instance is 1. -/
theorem wInd : dmdInd wOracle wEps = 1 := by
  norm_num [dmdInd, wOracle, wEps]

/-- `X_resh = [1]` for the `wTraj` instance. -/
theorem wX00 : dmdX 2 1 1 wTraj 0 0 = 1 := by
  norm_num [dmdX, dmdT3, dmdT2, dmdHank]
  rw [hankelRun_elem 2 1 (dmdVec 1 wTraj) 0 0 0 0 (by norm_num)]
  norm_num [dmdVec, wTraj]

/-- `Y_resh = [1]` for the `wTraj` instance. -/
theorem wY00 : dmdY 2 1 1 wTraj 0 0 = 1 := by
  norm_num [dmdY, dmdT3, dmdT2, dmdHank]
  rw [hankelRun_elem 2 1 (dmdVec 1 wTraj) 0 1 0 0 (by norm_num)]
  norm_num [dmdVec, wTraj]

/-- The reduced operator of the `wTraj` instance is the `1 × 1` identity. -/
theorem wTt : dmdTtilda 1 2 1 1 wTraj wOracle 0 0 = 1 := by
  simp only [dmdTtilda, mulMat, dmdVL, dmdSinv, adjointM]
  norm_num [Finset.sum_range_one, wOracle, wY00]

/-- The lifted left eigenvector of the `wTraj` instance. -/
theorem wLeftLift : dmdLeftLift wOracle wEps 0 0 = 1 := by
  simp only [dmdLeftLift, wInd, mulMat, adjointM]
  norm_num [Finset.sum_range_one, wOracle]

/-- The lifted right eigenvector of the `wTraj` instance. -/
theorem wRightLift : dmdRightLift 1 2 1 1 wTraj wOracle wEps 0 0 = 1 := by
  simp only [dmdRightLift, wInd, mulMat, dmdVL, dmdSinv]
  norm_num [Finset.sum_range_one, wOracle, wY00]

/-- The pre-square-root norm of the single mode of the `wTraj` instance. -/
theorem wNormSq : dmdNormSq 1 2 1 1 wTraj wOracle wEps 0 = 1 := by
  simp only [dmdNormSq]
  norm_num [Finset.sum_range_one, wLeftLift, wRightLift]

/-- The `wTraj` oracle is an exact SVD of the design matrix. -/
theorem wSVD : isSVD (1 * 1 ^ 2) (1 * (2 - 1)) wOracle.p (dmdX 2 1 1 wTraj)
    wOracle.s wOracle.u wOracle.v := by
  refine ⟨?_, ?_, ?_, ?_, ?_⟩
  · intro i _hi
    norm_num [wOracle]
  · intro j _hj i _hi
    norm_num [wOracle]
  · intro i hi j hj
    norm_num at hi hj
    subst hi
    subst hj
    rw [wX00]
    norm_num [Finset.sum_range_one, wOracle]
  · intro t1 ht1 t2 ht2
    norm_num [wOracle] at ht1 ht2
    subst ht1
    subst ht2
    norm_num [Finset.sum_range_one, wOracle]
  · intro t1 ht1 t2 ht2
    norm_num [wOracle] at ht1 ht2
    subst ht1
    subst ht2
    norm_num [Finset.sum_range_one, wOracle]

/-- The `wTraj` oracle is an exact eigendecomposition of the reduced
operator. -/
theorem wEig : isEigPairs (dmdInd wOracle wEps) (dmdTtilda 1 2 1 1 wTraj wOracle)
    wOracle.evals wOracle.right := by
  intro j hj i hi
  rw [wInd] at hj hi
  have hj0 : j = 0 := by omega
  have hi0 : i = 0 := by omega
  subst hj0
  subst hi0
  simp only [wInd, Finset.sum_range_one]
  rw [wTt]
  norm_num [wOracle]

/-- The `wTraj` oracle inverse is a two-sided inverse of the reduced right
eigenvectors. -/
theorem wInvO : isInverseOf (dmdInd wOracle wEps) wOracle.right wOracle.rinv := by
  intro i hi j hj
  rw [wInd] at hi hj
  have hi0 : i = 0 := by omega
  have hj0 : j = 0 := by omega
  subst hi0
  subst hj0
  constructor <;>
    (simp only [mulMat, wInd]
     norm_num [Finset.sum_range_one, wOracle])

/-- Witness for C1 at the concrete `wTraj` instance
(`bs = 1`, `n = 2`, `m = 1`, `K = 1`, exact rank-1 oracle). -/
theorem dmd_exact_pipeline_witness :
    dmdInd wOracle wEps = ((Finset.range wOracle.p).filter fun i => wEps < wOracle.s i).card ∧
    (∀ i, i < dmdInd wOracle wEps → ∀ j, j < dmdInd wOracle wEps →
      dmdTtilda 1 2 1 1 wTraj wOracle i j = specTtilda 1 2 1 1 wTraj wOracle wEps i j) ∧
    (∀ f, f < 1 * 1 ^ 2 → ∀ j, j < dmdInd wOracle wEps →
      dmdRightLift 1 2 1 1 wTraj wOracle wEps f j = specRightLift 1 2 1 1 wTraj wOracle wEps f j) ∧
    (∀ f, f < 1 * 1 ^ 2 → ∀ j, j < dmdInd wOracle wEps →
      dmdLeftLift wOracle wEps f j = specLeftLift wOracle wEps f j) ∧
    dmd 1 2 1 1 wTraj wOracle wEps
      = .ok (wOracle.evals, dmdRightOut 1 2 1 1 wTraj wOracle wEps,
          dmdLeftOut 1 2 1 1 wTraj wOracle wEps) :=
  dmd_exact_pipeline 1 2 1 1 wTraj wOracle wEps (by norm_num) (by norm_num) wSVD wEig wInvO

/-! ## Claim C4 -/

/-- C4: on an input where `dmd` succeeds (mode index inside the retained
rank, invertible reduced right-eigenvector matrix, nonzero mode norm), each
returned mode `j` satisfies the biorthogonality normalization
`∑_f conj(L[f,j]) · R[f,j] = 1`, because the right column was divided by
`norm_j = sqrt(∑_f conj(L)·R)` and the left column by `conj(norm_j)`.
The hypothesis `hsq` is the square law of the `tf.math.sqrt` oracle at the
one point where the pipeline applies it. -/
theorem biorthogonal_normalization {𝕜 : Type} [Field 𝕜] [StarRing 𝕜] (bs n m K : Nat)
    (traj : Ten4 𝕜) (O : DmdOracle 𝕜) (eps : ℚ) (j : Nat)
    (_hj : j < dmdInd O eps)
    (_hinv : isInverseOf (dmdInd O eps) O.right O.rinv)
    (hsq : O.sqrtc (dmdNormSq bs n m K traj O eps j)
            * O.sqrtc (dmdNormSq bs n m K traj O eps j)
          = dmdNormSq bs n m K traj O eps j)
    (hnz : dmdNorm bs n m K traj O eps j ≠ 0) :
    (∑ f ∈ Finset.range (K * m ^ 2),
      star (dmdLeftOut bs n m K traj O eps f j) * dmdRightOut bs n m K traj O eps f j) = 1 := by
  have hsq2 : dmdNorm bs n m K traj O eps j * dmdNorm bs n m K traj O eps j
      = dmdNormSq bs n m K traj O eps j := hsq
  have hterm : ∀ f,
      star (dmdLeftOut bs n m K traj O eps f j) * dmdRightOut bs n m K traj O eps f j
      = star (dmdLeftLift O eps f j) * dmdRightLift bs n m K traj O eps f j
          / (dmdNorm bs n m K traj O eps j * dmdNorm bs n m K traj O eps j) := by
    intro f
    simp only [dmdLeftOut, dmdRightOut]
    rw [star_div₀, star_star, div_mul_div_comm]
  rw [Finset.sum_congr rfl fun f _ => hterm f]
  rw [← Finset.sum_div]
  have hbody : (∑ f ∈ Finset.range (K * m ^ 2),
      star (dmdLeftLift O eps f j) * dmdRightLift bs n m K traj O eps f j)
      = dmdNormSq bs n m K traj O eps j := rfl
  rw [hbody, ← hsq2, div_self (mul_ne_zero hnz hnz)]

/-- Witness for C4 at the concrete `wTraj` instance: the single mode of the
normalized output has unit left-right inner product. -/
theorem biorthogonal_normalization_witness :
    (∑ f ∈ Finset.range (1 * 1 ^ 2),
      star (dmdLeftOut 1 2 1 1 wTraj wOracle wEps f 0)
        * dmdRightOut 1 2 1 1 wTraj wOracle wEps f 0) = 1 :=
  biorthogonal_normalization 1 2 1 1 wTraj wOracle wEps 0
    (by rw [wInd]; norm_num)
    wInvO
    (by rw [wNormSq]; norm_num [wOracle])
    (by show wOracle.sqrtc (dmdNormSq 1 2 1 1 wTraj wOracle wEps 0) ≠ 0
        rw [wNormSq]; norm_num [wOracle])

/-! ## Claim C6 (corrected) -/

/-- Evaluation lemmas for the `cTraj` instance (zero second time step, so
the lifted right eigenvector and hence the mode norm vanish). -/
theorem cInd : dmdInd cOracle wEps = 1 := by
  norm_num [dmdInd, cOracle, wEps]

/-- `X_resh = [1]` for the `cTraj` instance. -/
theorem cX00 : dmdX 2 1 1 cTraj 0 0 = 1 := by
  norm_num [dmdX, dmdT3, dmdT2, dmdHank]
  rw [hankelRun_elem 2 1 (dmdVec 1 cTraj) 0 0 0 0 (by norm_num)]
  norm_num [dmdVec, cTraj]

/-- `Y_resh = [0]` for the `cTraj` instance. -/
theorem cY00 : dmdY 2 1 1 cTraj 0 0 = 0 := by
  norm_num [dmdY, dmdT3, dmdT2, dmdHank]
  rw [hankelRun_elem 2 1 (dmdVec 1 cTraj) 0 1 0 0 (by norm_num)]
  norm_num [dmdVec, cTraj]

/-- The reduced operator of the `cTraj` instance is `[0]`. -/
theorem cTt : dmdTtilda 1 2 1 1 cTraj cOracle 0 0 = 0 := by
  simp only [dmdTtilda, mulMat, dmdVL, dmdSinv, adjointM]
  norm_num [Finset.sum_range_one, cOracle, cY00]

/-- The lifted left eigenvector of the `cTraj` instance is nonzero. -/
theorem cLeftLift : dmdLeftLift cOracle wEps 0 0 = 1 := by
  simp only [dmdLeftLift, cInd, mulMat, adjointM]
  norm_num [Finset.sum_range_one, cOracle]

/-- The lifted right eigenvector of the `cTraj` instance vanishes. -/
theorem cRightLift : dmdRightLift 1 2 1 1 cTraj cOracle wEps 0 0 = 0 := by
  simp only [dmdRightLift, cInd, mulMat, dmdVL, dmdSinv]
  norm_num [Finset.sum_range_one, cOracle, cY00]

/-- The mode norm of the `cTraj` instance is zero before the square root. -/
theorem cNormSq : dmdNormSq 1 2 1 1 cTraj cOracle wEps 0 = 0 := by
  simp only [dmdNormSq]
  norm_num [Finset.sum_range_one, cRightLift]

/-- The mode norm of the `cTraj` instance is zero. -/
theorem cNorm : dmdNorm 1 2 1 1 cTraj cOracle wEps 0 = 0 := by
  show cOracle.sqrtc (dmdNormSq 1 2 1 1 cTraj cOracle wEps 0) = 0
  rw [cNormSq]
  norm_num [cOracle]

/-- Counterexample to C6: a concrete input on which the mode norm is
exactly zero while `dmd` performs no detection at all.  The oracle data is
the exact SVD/eigendecomposition/inverse for this input (first four
conjuncts); the mode norm is zero (fifth conjunct) while the
pre-normalization left eigenvector is nonzero (sixth); nevertheless both
normalized outputs are just the division-by-zero values (zero in this exact
model, NaN/Inf in floating point) and `dmd` returns them as a normal,
non-failing result (last conjunct) — no numerical-failure condition is
detected or surfaced. -/
theorem zero_norm_no_detection_cex :
    dmdX 2 1 1 cTraj 0 0 = cOracle.u 0 0 * ((cOracle.s 0 : ℚ)) * star (cOracle.v 0 0) ∧
    dmdTtilda 1 2 1 1 cTraj cOracle 0 0 * cOracle.right 0 0
        = cOracle.evals 0 * cOracle.right 0 0 ∧
    cOracle.right 0 0 * cOracle.rinv 0 0 = 1 ∧
    cOracle.sqrtc 0 = 0 ∧
    dmdNormSq 1 2 1 1 cTraj cOracle wEps 0 = 0 ∧
    dmdLeftLift cOracle wEps 0 0 = 1 ∧
    dmdRightOut 1 2 1 1 cTraj cOracle wEps 0 0 = 0 ∧
    dmdLeftOut 1 2 1 1 cTraj cOracle wEps 0 0 = 0 ∧
    dmd 1 2 1 1 cTraj cOracle wEps
      = .ok (cOracle.evals, dmdRightOut 1 2 1 1 cTraj cOracle wEps,
          dmdLeftOut 1 2 1 1 cTraj cOracle wEps) := by
  refine ⟨?_, ?_, ?_, rfl, cNormSq, cLeftLift, ?_, ?_, ?_⟩
  · rw [cX00]
    norm_num [cOracle]
  · rw [cTt]
    norm_num [cOracle]
  · norm_num [cOracle]
  · simp only [dmdRightOut]
    rw [cNorm, div_zero]
  · simp only [dmdLeftOut]
    rw [cNorm, star_zero, div_zero]
  · norm_num [dmd, hankel, Except.map]

/-- C6 amended: `dmd` performs no zero-norm detection.  When the mode norm
is zero the normalization divides the columns through unconditionally: the
norm is `sqrt 0 = 0` and both output columns are the division-by-zero
values (zero in this exact model; NaN/Inf in floating point), and `dmd`
returns normally. -/
theorem zero_norm_divides_through {𝕜 : Type} [Field 𝕜] [StarRing 𝕜] (bs n m K : Nat)
    (traj : Ten4 𝕜) (O : DmdOracle 𝕜) (eps : ℚ) (j : Nat)
    (hz : dmdNormSq bs n m K traj O eps j = 0) (h0 : O.sqrtc 0 = 0) :
    dmdNorm bs n m K traj O eps j = 0 ∧
    ∀ f, dmdRightOut bs n m K traj O eps f j = 0 ∧ dmdLeftOut bs n m K traj O eps f j = 0 := by
  have hnorm : dmdNorm bs n m K traj O eps j = 0 := by
    show O.sqrtc (dmdNormSq bs n m K traj O eps j) = 0
    rw [hz, h0]
  refine ⟨hnorm, fun f => ⟨?_, ?_⟩⟩
  · show dmdRightLift bs n m K traj O eps f j / dmdNorm bs n m K traj O eps j = 0
    rw [hnorm, div_zero]
  · show dmdLeftLift O eps f j / star (dmdNorm bs n m K traj O eps j) = 0
    rw [hnorm, star_zero, div_zero]

/-- Witness for the amended C6 at the concrete `cTraj` instance. -/
theorem zero_norm_divides_through_witness :
    dmdNorm 1 2 1 1 cTraj cOracle wEps 0 = 0 ∧
    ∀ f, dmdRightOut 1 2 1 1 cTraj cOracle wEps f 0 = 0 ∧
      dmdLeftOut 1 2 1 1 cTraj cOracle wEps f 0 = 0 :=
  zero_norm_divides_through 1 2 1 1 cTraj cOracle wEps 0 cNormSq rfl

/-! ## Claim C8 -/

/-- C8: when every singular value is at most `eps`, the retained rank is 0
and `pinv` returns the zero matrix (of shape `(b, a)`).  The reciprocal
`1/σ` then only ever occurs inside a sum over the empty retained range, so
the division branch is unreachable and no numeric error can arise. -/
theorem pinv_rank_zero_gives_zero {𝕜 : Type} [Field 𝕜] [StarRing 𝕜] (p : Nat)
    (X : Mat 𝕜) (s : Nat → ℚ) (u v : Mat 𝕜) (eps : ℚ)
    (hs : ∀ i, i < p → s i ≤ eps) :
    pinvInd p s eps = 0 ∧ ∀ i j, pinv p X s u v eps i j = 0 := by
  have h0 : pinvInd p s eps = 0 := by
    rw [pinvInd, Finset.card_eq_zero, Finset.filter_eq_empty_iff]
    intro i hi
    exact not_lt.2 (hs i (Finset.mem_range.1 hi))
  refine ⟨h0, fun i j => ?_⟩
  simp [pinv, h0, mulMat]

/-- Witness for C8 at the concrete `1 × 1` zero matrix, whose singular
value 0 is at most the default tolerance. -/
theorem pinv_rank_zero_gives_zero_witness :
    pinvInd 1 (fun _ => 0) wEps = 0 ∧
    ∀ i j, pinv 1 (fun _ _ => (0 : ℚ)) (fun _ => 0) (fun _ _ => (1 : ℚ)) (fun _ _ => (1 : ℚ))
      wEps i j = 0 :=
  pinv_rank_zero_gives_zero 1 (fun _ _ => (0 : ℚ)) (fun _ => 0) (fun _ _ => (1 : ℚ))
    (fun _ _ => (1 : ℚ)) wEps (by intro i _hi; norm_num [wEps])

/-! ## Claim C9 (corrected) -/

/-- The retained rank never exceeds the number of singular values. -/
theorem pinvInd_le (p : Nat) (s : Nat → ℚ) (eps : ℚ) : pinvInd p s eps ≤ p := by
  simpa [pinvInd] using Finset.card_filter_le (Finset.range p) fun i => eps < s i

/-- Counterexample to C9: on the batched input `cxX` of shape `(2, 1, 1)`
— whose exact batched SVD the remaining conjuncts verify — the claim
demands a result of shape `(2, 1, 1)` holding the two pseudoinverses, but
the source computes a tensor of shape `(2, 2, 1)`: the global singular
value count is `ind = 2`, the slices `u[:, :ind]`, `v[:, :ind]`, `s[:ind]`
hit the wrong axes of the batched factors, and the broadcast multiply
`(v * s_inv)` blows the row axis up to 2. -/
theorem pinv_batched_shape_cex :
    okFst (pinv3 2 1 1 cxX cxS cxU cxU wEps) = some (2, 2, 1) ∧
    ((2, 2, 1) : Nat × Nat × Nat) ≠ (2, 1, 1) ∧
    cxX 0 0 0 = cxU 0 0 0 * ((cxS 0 0 : ℚ)) * star (cxU 0 0 0) ∧
    cxX 1 0 0 = cxU 1 0 0 * ((cxS 1 0 : ℚ)) * star (cxU 1 0 0) ∧
    star (cxU 0 0 0) * cxU 0 0 0 = 1 ∧
    star (cxU 1 0 0) * cxU 1 0 0 = 1 ∧
    0 ≤ cxS 0 0 ∧ 0 ≤ cxS 1 0 := by
  refine ⟨?_, by decide, by norm_num [cxX, cxU, cxS], by norm_num [cxX, cxU, cxS],
    by norm_num [cxU], by norm_num [cxU], by norm_num [cxS], by norm_num [cxS]⟩
  have hind : ((Finset.range 2 ×ˢ Finset.range 1).filter
      fun ij => wEps < cxS ij.1 ij.2).card = 2 := by
    rw [Finset.filter_true_of_mem]
    · rfl
    · intro ij hij
      rcases Finset.mem_product.1 hij with ⟨h1, _h2⟩
      simp only [Finset.mem_range] at h1
      interval_cases h : ij.1 <;> norm_num [cxS, wEps]
  simp only [pinv3, Nat.min_self]
  rw [hind]
  norm_num [mulB32, bcompat, matmul33, adj3, okFst]

/-- C9 amended: for a 2-D input `X` of shape `(a, b)` with SVD
`(s, u, v)`, `pinv` computes entrywise the spec-side truncated
pseudoinverse `V · diag(1/σ₁..σᵣ) · Uᴴ` of shape `(b, a)`; for inputs with
leading batch dimensions the slicing and the global singular-value count
misapply axes and the result does not even have the claimed shape (see the
counterexample). -/
theorem pinv_two_dim_truncated_pinv {𝕜 : Type} [Field 𝕜] [StarRing 𝕜] (a b p : Nat)
    (X : Mat 𝕜) (s : Nat → ℚ) (u v : Mat 𝕜) (eps : ℚ)
    (_hsvd : isSVD a b p X s u v) :
    ∀ i j, pinv p X s u v eps i j = specPinv p s u v eps i j := by
  intro i j
  have hmin : min (pinvInd p s eps) p = pinvInd p s eps := min_eq_left (pinvInd_le p s eps)
  simp only [pinv, specPinv, hmin]
  refine mulMat_congr_left _ _ _ _ _ _ fun t ht => ?_
  rw [mulMat_diag _ _ _ _ _ ht]

/-- Witness for the amended C9 at the `1 × 1` matrix `[[2]]` with its
exact SVD, evaluated at the single entry of the result. -/
theorem pinv_two_dim_truncated_pinv_witness :
    pinv 1 wX2 wS2 wOne wOne wEps 0 0 = specPinv 1 wS2 wOne wOne wEps 0 0 :=
  pinv_two_dim_truncated_pinv 1 1 1 wX2 wS2 wOne wOne wEps
    (by
      refine ⟨?_, ?_, ?_, ?_, ?_⟩
      · intro i _hi
        norm_num [wS2]
      · intro j _hj i _hi
        norm_num [wS2]
      · intro i hi j hj
        norm_num at hi hj
        subst hi
        subst hj
        norm_num [Finset.sum_range_one, wX2, wS2, wOne]
      · intro t1 h1 t2 h2
        norm_num at h1 h2
        subst h1
        subst h2
        norm_num [Finset.sum_range_one, wOne]
      · intro t1 h1 t2 h2
        norm_num at h1 h2
        subst h1
        subst h2
        norm_num [Finset.sum_range_one, wOne])
    0 0

/-! ## Claim C10 -/

/-- For descending singular values, membership in the retained prefix is
equivalent to exceeding the cutoff. -/
theorem count_lt_iff_of_descending (p : Nat) (s : Nat → ℚ) (c : ℚ)
    (hs : ∀ j, j < p → ∀ i, i ≤ j → s j ≤ s i) (i : Nat) (hi : i < p) :
    i < ((Finset.range p).filter fun t => c < s t).card ↔ c < s i := by
  constructor
  · intro h
    by_contra hc
    push_neg at hc
    have hsub : (Finset.range p).filter (fun t => c < s t) ⊆ Finset.range i := by
      intro t ht
      rcases Finset.mem_filter.1 ht with ⟨htr, hts⟩
      rw [Finset.mem_range] at htr ⊢
      by_contra hti
      push_neg at hti
      exact absurd hts (not_lt.2 (le_trans (hs t htr i hti) hc))
    have hcard := Finset.card_le_card hsub
    rw [Finset.card_range] at hcard
    omega
  · intro h
    have hsub : Finset.range (i + 1) ⊆ (Finset.range p).filter fun t => c < s t := by
      intro t ht
      rw [Finset.mem_range] at ht
      refine Finset.mem_filter.2 ⟨Finset.mem_range.2 (by omega), ?_⟩
      exact lt_of_lt_of_le h (hs i hi t (by omega))
    have hcard := Finset.card_le_card hsub
    rw [Finset.card_range] at hcard
    omega

/-- C10: `solve_regression` uses the fixed internal tolerance `1e-8` (it
takes no tolerance argument at all, so no caller-supplied `ε` is involved)
and does not truncate: the weight applied to column `i` of `V` is `1/σ i`
when `σ i > 1e-8` but `σ i` itself (neither zero nor a reciprocal) when
`σ i ≤ 1e-8`, and the result is `Y · (V · diag(w)) · Uᴴ` entrywise. -/
theorem solve_regression_damped_weights {𝕜 : Type} [Field 𝕜] [StarRing 𝕜] (q p : Nat)
    (X Y : Mat 𝕜) (s : Nat → ℚ) (u v : Mat 𝕜)
    (hs : ∀ j, j < p → ∀ i, i ≤ j → s j ≤ s i) :
    (∀ t, t < p → srW p s t = srWClaim s t) ∧
    ∀ i j, solve_regression q p X Y s u v i j
      = ∑ t2 ∈ Finset.range q, Y i t2 *
          ∑ t ∈ Finset.range p,
            v t2 t * (srWClaimK s t : 𝕜) * star (u j t) := by
  have hw : ∀ t, t < p → srW p s t = srWClaim s t := by
    intro t ht
    simp only [srW, srWClaim]
    by_cases hc : (1 : ℚ) / 100000000 < s t
    · rw [if_pos hc, if_pos]
      exact (count_lt_iff_of_descending p s _ hs t ht).2 hc
    · rw [if_neg hc, if_neg]
      intro hlt
      exact hc ((count_lt_iff_of_descending p s _ hs t ht).1 hlt)
  refine ⟨hw, fun i j => ?_⟩
  simp only [solve_regression, srXpinv, mulMat, adjointM, srWClaimK]
  refine Finset.sum_congr rfl fun t2 _ => ?_
  congr 1
  refine Finset.sum_congr rfl fun t ht => ?_
  rw [hw t (Finset.mem_range.1 ht)]

/-- Witness for C10 at the `1 × 1` system `X = [[2]]`, `Y = [[3]]` with
the exact SVD of `X`. -/
theorem solve_regression_damped_weights_witness :
    (∀ t, t < 1 → srW 1 wS2 t = srWClaim wS2 t) ∧
    ∀ i j, solve_regression 1 1 wX2 wY3 wS2 wOne wOne i j
      = ∑ t2 ∈ Finset.range 1, wY3 i t2 *
          ∑ t ∈ Finset.range 1,
            wOne t2 t * (srWClaimK wS2 t : ℚ) * star (wOne j t) :=
  solve_regression_damped_weights 1 1 wX2 wY3 wS2 wOne wOne
    (by intro j _hj i _hi; norm_num [wS2])

end QDMD
